import Mathlib

/-!
Verification of the label-persistence and progress-tracking core of the
glaucoma labeling tool (a clinical data-labeling web application).

The development shallowly embeds the Python sources:
  * `src/utils/dataloader.py`   (class `DataLoader`)
  * `src/utils/patient_tracker.py` (class `PatientTracker`)
  * `src/utils/cache_manager.py` (class `CacheManager`)

Python strings are modeled as `List Char` (a Python `str` is a sequence of
code points).  Stateful backends (the remote spreadsheet, the local label
directory, the session caches) are modeled by explicit state passing: the
spreadsheet is a list of rows (each row a list of cells), the local label
store is a map from file name to stored record, the caches are key lists in
insertion order (mirroring `collections.OrderedDict` key order).  Fallible
backends carry explicit success booleans.
-/

namespace Glaucoma

/-- Python `str` as a sequence of code points. -/
abbrev Str := List Char

/-! ### Decimal rendering and parsing of integers (Python `str`/`int`) -/

/-- Fuel-driven accumulator loop producing the decimal digits of `n`
(least-significant digit already accumulated last).  Fuel `n + 1` always
suffices because `n / 10 < n` for `n ≥ 10`. -/
def natStrGo : Nat → Nat → Str → Str
  | 0, _, acc => acc
  | fuel + 1, n, acc =>
    if n < 10 then Char.ofNat (48 + n) :: acc
    else natStrGo fuel (n / 10) (Char.ofNat (48 + n % 10) :: acc)

/-- Decimal representation of a natural number, as Python `str(n)` yields. -/
def natStr (n : Nat) : Str := natStrGo (n + 1) n []

/-- Decimal representation of an integer, as Python `str(i)` yields. -/
def intStr (i : Int) : Str :=
  if i < 0 then '-' :: natStr i.natAbs else natStr i.natAbs

/-- Numeric value of a decimal digit character, if it is one. -/
def digitVal? (c : Char) : Option Nat :=
  if '0' ≤ c ∧ c ≤ '9' then some (c.toNat - 48) else none

/-- Left-to-right accumulation of a decimal numeral. -/
def strToNatGo : Str → Nat → Option Nat
  | [], acc => some acc
  | c :: cs, acc =>
    match digitVal? c with
    | some d => strToNatGo cs (acc * 10 + d)
    | none => none

/-- Parse a non-empty all-digit string as a natural number
(the behavior of Python `int(s)` on a canonical non-negative numeral,
leading zeros allowed). -/
def strToNat? : Str → Option Nat
  | [] => none
  | c :: cs => strToNatGo (c :: cs) 0

/-- Parse an optionally `-`-signed decimal string as an integer
(the behavior of Python `int(s)` on a canonical numeral). -/
def strToInt? : Str → Option Int
  | '-' :: rest => (strToNat? rest).map (fun n => -(n : Int))
  | s => (strToNat? s).map (fun n => (n : Int))

example : natStr 0 = "0".data := by decide
example : natStr 120 = "120".data := by decide
example : intStr (-35) = "-35".data := by decide
example : strToInt? "02".data = some 2 := by decide
example : strToInt? "2a".data = none := by decide

/-! ### CacheManager (`src/utils/cache_manager.py`)

Each of the three session caches (`patient_cache`, `image_cache`,
`labels_cache`) is an `OrderedDict`; the stored values are irrelevant to the
properties below, so a cache is modeled by its key list in insertion/recency
order (oldest first, most recently used last). -/

/-- Fuel-driven form of the eviction loop
`while len(cache_dict) > self.max_cache_size: cache_dict.popitem(last=False)`:
drop the oldest (first) key while the size exceeds `maxSize`.  Fuel equal to
the list length always suffices (each iteration shortens the list by one). -/
def evictGo (maxSize : Nat) : Nat → List Str → List Str
  | 0, c => c
  | fuel + 1, c => if maxSize < c.length then evictGo maxSize fuel c.tail else c

/-- The eviction loop of `CacheManager.update_cache_order`. -/
def evictOldest (maxSize : Nat) (c : List Str) : List Str :=
  evictGo maxSize c.length c

/-- `CacheManager.update_cache_order(patient_id, cache_dict)`: if the key is
present, move it to the most-recently-used end; otherwise insert it at the
end and evict least-recently-used entries while over capacity. -/
def updateCacheOrder (maxSize : Nat) (patientKey : Str) (cacheDict : List Str) : List Str :=
  if patientKey ∈ cacheDict then
    cacheDict.erase patientKey ++ [patientKey]
  else
    evictOldest maxSize (cacheDict ++ [patientKey])

/-- The three session caches of `CacheManager`, by key list. -/
structure CacheState where
  patientCache : List Str
  imageCache : List Str
  labelsCache : List Str
deriving DecidableEq, Repr

/-- `CacheManager.clear_patient_cache(patient_id)`: delete the exact key from
`patient_cache`, and delete from `image_cache` and `labels_cache` every key
`k` with `k.startswith(patient_key)`. -/
def clearPatientCache (patientKey : Str) (st : CacheState) : CacheState :=
  { patientCache := st.patientCache.erase patientKey
    imageCache := st.imageCache.filter (fun k => !(patientKey.isPrefixOf k))
    labelsCache := st.labelsCache.filter (fun k => !(patientKey.isPrefixOf k)) }

/-! ### DataLoader (`src/utils/dataloader.py`)

The labels payload (`labels_dict`) is a Python dict from field name to
string; it is modeled as an association list queried with the semantics of
`dict.get(key, default)`.  The Google Sheets tab `labels_spreadsheet` is
modeled as its list of rows, each row a list of string cells.  The local
label directory is modeled as a map from file name to the stored record. -/

/-- A labels payload: field name to value. -/
abbrev LabelsDict := List (Str × Str)

/-- Python `labels_dict.get(key, default)`. -/
def dictGetD (d : LabelsDict) (key deflt : Str) : Str :=
  (d.lookup key).getD deflt

/-- Python `labels_dict.get(key, '')`. -/
def dictGet (d : LabelsDict) (key : Str) : Str := dictGetD d key []

/-- The remote `labels_spreadsheet` tab: a list of rows of string cells. -/
abbrev Sheet := List (List Str)

/-- The `row_data` list assembled by `DataLoader._save_to_sheets`: the four
identity cells followed by the 24 payload cells, in source order. -/
def rowData (username maskedid eye : Str) (vfNumber : Int) (d : LabelsDict) : List Str :=
  [username, maskedid, eye, intStr vfNumber,
   dictGet d "pdf_filename".data,
   dictGet d "opv_filename".data,
   dictGet d "aeexamdate_shift".data,
   dictGet d "age".data,
   dictGet d "normality".data,
   dictGet d "reliability".data,
   dictGet d "gdefect1".data,
   dictGet d "gposition1".data,
   dictGet d "gdefect2".data,
   dictGet d "gposition2".data,
   dictGet d "gdefect3".data,
   dictGet d "gposition3".data,
   dictGet d "ngdefect1".data,
   dictGet d "ngposition1".data,
   dictGet d "ngdefect2".data,
   dictGet d "ngposition2".data,
   dictGet d "ngdefect3".data,
   dictGet d "ngposition3".data,
   dictGet d "artifact1".data,
   dictGet d "artifact2".data,
   dictGet d "comment".data,
   dictGet d "last_updated".data,
   dictGetD d "specialist_name".data username,
   dictGet d "data_source".data]

/-- The row test of `DataLoader._find_existing_row`:
`len(row) >= 4 and row[0] == username and row[1] == maskedid and
row[2] == eye and str(row[3]) == str(vf_number)` (sheet cells are read back
as strings, so `str(row[3])` is the cell itself). -/
def matchesIdRow (username maskedid eye : Str) (vfNumber : Int) (row : List Str) : Bool :=
  match row with
  | a :: b :: c :: d :: _ =>
    a = username ∧ b = maskedid ∧ c = eye ∧ d = intStr vfNumber
  | _ => false

/-- The `enumerate` scan of `_find_existing_row`, carrying the 0-based index
of the current row and returning `i + 1` (the 1-indexed row number) at the
first match. -/
def findRowGo (p : List Str → Bool) : Nat → Sheet → Option Nat
  | _, [] => none
  | i, r :: rs => if p r then some (i + 1) else findRowGo p (i + 1) rs

/-- `DataLoader._find_existing_row`: read columns A–D of the whole sheet,
linearly scan for the first row matching all four identity fields, and
return its 1-indexed row number, or `none`. -/
def findExistingRow (sheet : Sheet) (username maskedid eye : Str) (vfNumber : Int) : Option Nat :=
  findRowGo (matchesIdRow username maskedid eye vfNumber) 0 sheet

/-- `DataLoader._save_to_sheets`: when the sheets service is unavailable,
fail without touching the sheet; otherwise upsert — overwrite the full
column range of the existing row for the identity if one is found, else
append a new row. -/
def saveToSheets (service : Bool) (sheet : Sheet) (username maskedid eye : Str)
    (vfNumber : Int) (d : LabelsDict) : Sheet × Bool :=
  if service then
    match findExistingRow sheet username maskedid eye vfNumber with
    | some n => (sheet.set (n - 1) (rowData username maskedid eye vfNumber d), true)
    | none => (sheet ++ [rowData username maskedid eye vfNumber d], true)
  else (sheet, false)

/-- `DataLoader.get_label_path` without the directory component:
the file name `f"{username}_{maskedid}_{eye}_{vf_number}.json"`. -/
def getLabelPath (username maskedid eye : Str) (vfNumber : Int) : Str :=
  username ++ "_".data ++ maskedid ++ "_".data ++ eye ++ "_".data
    ++ intStr vfNumber ++ ".json".data

/-- The local label directory: file name to stored record. -/
abbrev LocalStore := Str → Option LabelsDict

/-- `DataLoader.save_labels`: write the record to the local file derived
from the identity (an overwrite if the file exists; skipped when the local
write fails), then in all cases attempt the remote upsert; report success
when either backend succeeded. -/
def saveLabels (localOk service : Bool) (fs : LocalStore) (sheet : Sheet)
    (username maskedid eye : Str) (vfNumber : Int) (d : LabelsDict) :
    (LocalStore × Sheet) × Bool :=
  let fs' : LocalStore :=
    if localOk then
      fun p => if p = getLabelPath username maskedid eye vfNumber then some d else fs p
    else fs
  let rs := saveToSheets service sheet username maskedid eye vfNumber d
  ((fs', rs.1), localOk || rs.2)

/-- The file filter of `DataLoader.get_user_labels_for_patient` and
`DataLoader.delete_user_labels_for_patient`:
`f.startswith(f"{username}_{maskedid}_") and f.endswith('.json')`. -/
def labelFileMatches (username maskedid : Str) (f : Str) : Bool :=
  (username ++ "_".data ++ maskedid ++ "_".data).isPrefixOf f
    && (".json".data).isSuffixOf f

/-- `DataLoader.delete_user_labels_for_patient` over the listing of the
label directory: remove exactly the matching files; always succeeds (an
absent directory and an empty match list are not errors). -/
def deleteUserLabelsForPatient (files : List Str) (username maskedid : Str) :
    List Str × Bool :=
  (files.filter (fun f => !labelFileMatches username maskedid f), true)

/-! ### PatientTracker (`src/utils/patient_tracker.py`)

The `progress_tracking` tab has columns `username`, `completed_patients`,
`last_patient`; it is modeled as a list of rows.  Python `set`s of patient
ids are modeled as duplicate-free lists, with Python `sorted` modeled by an
insertion sort over the code-point lexicographic order. -/

/-- One row of the `progress_tracking` tab. -/
structure ProgressRow where
  username : Str
  completedPatients : Str
  lastPatient : Str
deriving DecidableEq, Repr

/-- The `progress_tracking` tab. -/
abbrev ProgressTable := List ProgressRow

/-- Code-point lexicographic `≤` on strings, the order Python `sorted`
uses on `str`. -/
def strLe : Str → Str → Bool
  | [], _ => true
  | _ :: _, [] => false
  | a :: as, b :: bs => if a < b then true else if a = b then strLe as bs else false

/-- Insert into a list sorted by `strLe`. -/
def insertSorted (x : Str) : List Str → List Str
  | [] => [x]
  | y :: ys => if strLe x y then x :: y :: ys else y :: insertSorted x ys

/-- Python `sorted` on a list of strings (insertion sort by `strLe`). -/
def pysort : List Str → List Str
  | [] => []
  | x :: xs => insertSorted x (pysort xs)

/-- Python `";".join(l)`. -/
def joinSemi (l : List Str) : Str := List.intercalate [';'] l

/-- `set(completed.split(";")) if completed else set()`: the stored
completion cell parsed into the set of patient ids (duplicate-free list). -/
def parseCompleted (s : Str) : List Str :=
  if s = [] then [] else (s.splitOn ';').dedup

/-- The first `progress_tracking` row whose `username` matches
(`df[df["username"] == username]` keeps table order, `.iloc[0]` takes the
first hit). -/
def findUserRow (tbl : ProgressTable) (username : Str) : Option ProgressRow :=
  tbl.find? (fun r => r.username = username)

/-- `PatientTracker.get_completed_patients`: the parsed completion set of the
user's row, or the empty set when the user has no row. -/
def getCompletedPatients (tbl : ProgressTable) (username : Str) : List Str :=
  match findUserRow tbl username with
  | none => []
  | some r => parseCompleted r.completedPatients

/-- `last_patient` of the user's row, as read by `get_user_stats`. -/
def getLastPatient (tbl : ProgressTable) (username : Str) : Option Str :=
  (findUserRow tbl username).map (fun r => r.lastPatient)

/-- The existing-user branch of `PatientTracker.mark_patient_completed`:
at the first row of the user (`df.index[df["username"] == username][0]`),
if the patient is not yet a member, add it, store the set re-serialized as
`";".join(sorted(completed_set))`, and set `last_patient`; otherwise leave
the row untouched. -/
def markRow (username maskedid : Str) : ProgressTable → ProgressTable
  | [] => []
  | r :: rs =>
    if r.username = username then
      (if maskedid ∈ parseCompleted r.completedPatients then r :: rs
       else { r with
               completedPatients :=
                 joinSemi (pysort (maskedid :: parseCompleted r.completedPatients))
               lastPatient := maskedid } :: rs)
    else r :: markRow username maskedid rs

/-- `PatientTracker.mark_patient_completed`: build the updated table (a new
single-patient row for an unseen user, else `markRow`), then write the whole
table back; when the sheets service is unavailable the write fails and the
stored table is unchanged. -/
def markPatientCompleted (service : Bool) (tbl : ProgressTable)
    (username maskedid : Str) : ProgressTable × Bool :=
  let df' :=
    match findUserRow tbl username with
    | none => tbl ++ [⟨username, maskedid, maskedid⟩]
    | some _ => markRow username maskedid tbl
  if service then (df', true) else (tbl, false)

/-- The statistics record returned by `PatientTracker.get_user_stats`.
Python float arithmetic is modeled over `ℚ`. -/
structure UserStats where
  completedCount : Nat
  remainingCount : Int
  totalPatients : Int
  completionPercentage : ℚ
  lastPatient : Option Str
deriving DecidableEq, Repr

/-- `PatientTracker.get_user_stats`. -/
def getUserStats (tbl : ProgressTable) (username : Str) (totalPatients : Int) : UserStats :=
  let completedCount := (getCompletedPatients tbl username).length
  { completedCount := completedCount
    remainingCount := totalPatients - completedCount
    totalPatients := totalPatients
    completionPercentage :=
      if 0 < totalPatients then (completedCount : ℚ) / (totalPatients : ℚ) * 100 else 0
    lastPatient := getLastPatient tbl username }

/-! #### check_patient_completion -/

/-- One row of the `labels_spreadsheet` tab after
`astype(str)` normalization of the columns used by
`check_patient_completion`. -/
structure LabelRow where
  username : Str
  maskedid : Str
  eye : Str
  vfNumber : Str
deriving DecidableEq, Repr

/-- One roster row of the per-patient dataframe `df_patient`:
`eye` and the numeric `visual_field_number`. -/
structure RosterRow where
  eye : Str
  visualFieldNumber : Int
deriving DecidableEq, Repr

/-- The expected pair set of `check_patient_completion`:
`{(str(r["eye"]), str(int(r["visual_field_number"]))) for each roster row}`. -/
def expectedPairs (dfPatient : List RosterRow) : List (Str × Str) :=
  dfPatient.map (fun r => (r.eye, intStr r.visualFieldNumber))

/-- The found pair set of `check_patient_completion`: the `(eye, vf_number)`
string pairs of this user's label rows for this patient. -/
def foundPairs (labels : List LabelRow) (username maskedid : Str) : List (Str × Str) :=
  ((labels.filter (fun r => r.username = username)).filter
      (fun r => r.maskedid = maskedid)).map (fun r => (r.eye, r.vfNumber))

/-- `PatientTracker.check_patient_completion`: `expected.issubset(found)`. -/
def checkPatientCompletion (labels : List LabelRow) (username maskedid : Str)
    (dfPatient : List RosterRow) : Bool :=
  (expectedPairs dfPatient).all (fun p => (foundPairs labels username maskedid).contains p)

/-- Modelled from the spec: the "integer-derived canonical string" form of a
field index — parse the string as an integer and re-render it canonically,
leaving non-numeric strings unchanged. -/
def canonIdx (s : Str) : Str :=
  match strToInt? s with
  | some n => intStr n
  | none => s

/-- Modelled from the spec: `check_patient_completion` as the claim states
it, with the `field_index` component normalized to the integer-derived
canonical string on BOTH the expected and the found side. -/
def checkPatientCompletionSpec (labels : List LabelRow) (username maskedid : Str)
    (dfPatient : List RosterRow) : Bool :=
  let fnd := (foundPairs labels username maskedid).map (fun p => (p.1, canonIdx p.2))
  (expectedPairs dfPatient).all (fun p => fnd.contains (p.1, canonIdx p.2))

/-! ## Helper lemmas -/

theorem findRowGo_eq_none {p : List Str → Bool} :
    ∀ (rs : Sheet) (i : Nat), findRowGo p i rs = none ↔ ∀ r ∈ rs, p r = false := by
  intro rs
  induction rs with
  | nil => simp [findRowGo]
  | cons r rs ih =>
    intro i
    by_cases h : p r <;> simp [findRowGo, h, ih (i + 1)]

theorem findRowGo_eq_some {p : List Str → Bool} :
    ∀ (rs : Sheet) (i n : Nat),
      findRowGo p i rs = some n ↔
        ∃ pre row post, rs = pre ++ row :: post ∧ p row = true ∧
          (∀ r ∈ pre, p r = false) ∧ n = i + pre.length + 1 := by
  intro rs
  induction rs with
  | nil => simp [findRowGo]
  | cons r rs ih =>
    intro i n
    by_cases h : p r
    · simp only [findRowGo, h, if_pos, Option.some.injEq]
      constructor
      · rintro rfl
        exact ⟨[], r, rs, rfl, h, by simp, by simp⟩
      · rintro ⟨pre, row, post, hdec, hrow, hpre, hn⟩
        cases pre with
        | nil =>
          simp at hdec hn
          omega
        | cons a pre =>
          have hpa := hpre a (by simp)
          have hra : r = a := by
            have := congrArg (fun l => l.head?) hdec
            simpa using this
          rw [← hra, h] at hpa
          cases hpa
    · simp only [findRowGo, h, if_neg, Bool.false_eq_true, not_false_iff, ih (i + 1)]
      constructor
      · rintro ⟨pre, row, post, hdec, hrow, hpre, hn⟩
        refine ⟨r :: pre, row, post, by simp [hdec], hrow, ?_, by simp; omega⟩
        intro x hx
        rcases List.mem_cons.mp hx with rfl | hx
        · exact Bool.eq_false_iff.mpr h
        · exact hpre x hx
      · rintro ⟨pre, row, post, hdec, hrow, hpre, hn⟩
        cases pre with
        | nil =>
          simp at hdec
          rw [← hdec.1] at hrow
          exact absurd hrow h
        | cons a pre =>
          have htl : rs = pre ++ row :: post := by
            have := congrArg (fun l => l.tail) hdec
            simpa using this
          refine ⟨pre, row, post, htl, hrow, fun x hx => hpre x (by simp [hx]), ?_⟩
          simp at hn
          omega

theorem matchesIdRow_rowData (username maskedid eye : Str) (vfNumber : Int)
    (d : LabelsDict) :
    matchesIdRow username maskedid eye vfNumber
      (rowData username maskedid eye vfNumber d) = true := by
  simp [matchesIdRow, rowData]

theorem findRowGo_append {p : List Str → Bool} :
    ∀ (xs : Sheet), (∀ x ∈ xs, p x = false) →
      ∀ (i : Nat) (ys : Sheet), findRowGo p i (xs ++ ys) = findRowGo p (i + xs.length) ys := by
  intro xs
  induction xs with
  | nil => simp
  | cons x xs ih =>
    intro h i ys
    have hx : p x = false := h x (by simp)
    have : i + (x :: xs).length = (i + 1) + xs.length := by simp; omega
    rw [List.cons_append, findRowGo, hx, this, ih (fun y hy => h y (by simp [hy]))]
    simp

theorem set_append_length {α : Type _} :
    ∀ (xs : List α) (r : α) (ys : List α) (b : α),
      (xs ++ r :: ys).set xs.length b = xs ++ b :: ys := by
  intro xs
  induction xs with
  | nil => intros; rfl
  | cons x xs ih => intro r ys b; simp [List.set, ih]

/-! ## Claim theorems -/

theorem evictGo_length_le (N : Nat) :
    ∀ (fuel : Nat) (c : List Str), c.length ≤ N + fuel → (evictGo N fuel c).length ≤ N := by
  intro fuel
  induction fuel with
  | zero => intro c hc; simpa [evictGo] using hc
  | succ f ih =>
    intro c hc
    rw [evictGo]
    by_cases h : N < c.length
    · rw [if_pos h]
      exact ih c.tail (by simp [List.length_tail]; omega)
    · rw [if_neg h]
      omega

theorem evictOldest_length_le (N : Nat) (c : List Str) : (evictOldest N c).length ≤ N :=
  evictGo_length_le N c.length c (Nat.le_add_left _ _)

theorem evictGo_getLast? (N : Nat) (hN : 1 ≤ N) :
    ∀ (fuel : Nat) (c : List Str), c ≠ [] → (evictGo N fuel c).getLast? = c.getLast? := by
  intro fuel
  induction fuel with
  | zero => intro c _; rfl
  | succ f ih =>
    intro c hc
    rw [evictGo]
    by_cases h : N < c.length
    · rw [if_pos h]
      match c with
      | [a] => simp at h; omega
      | a :: b :: t =>
        have : (a :: b :: t).tail = b :: t := rfl
        rw [this, ih (b :: t) (by simp), List.getLast?_cons_cons]
    · rw [if_neg h]

theorem updateCacheOrder_length_le (N : Nat) (k : Str) (c : List Str)
    (hc : c.length ≤ N) : (updateCacheOrder N k c).length ≤ N := by
  rw [updateCacheOrder]
  by_cases h : k ∈ c
  · rw [if_pos h]
    have h1 : (c.erase k).length = c.length - 1 := List.length_erase_of_mem h
    have h0 : 0 < c.length := List.length_pos.mpr (List.ne_nil_of_mem h)
    simp [h1]
    omega
  · rw [if_neg h]
    exact evictOldest_length_le N _

theorem updateCacheOrder_getLast? (N : Nat) (hN : 1 ≤ N) (k : Str) (c : List Str) :
    (updateCacheOrder N k c).getLast? = some k := by
  rw [updateCacheOrder]
  by_cases h : k ∈ c
  · rw [if_pos h]
    exact List.getLast?_concat _
  · rw [if_neg h, evictOldest,
      evictGo_getLast? N hN _ _ (by simp)]
    exact List.getLast?_concat _

/-- Claim C7: `_find_existing_row` reads the identity columns of the whole
table and linearly scans for a row whose first four cells match the four
identity fields as strings: it returns `some n` exactly when the table
decomposes as a non-matching block followed by a matching row at 1-indexed
position `n`, and `none` exactly when no row matches. -/
theorem find_existing_row_first_match (sheet : Sheet) (username maskedid eye : Str)
    (vfNumber : Int) :
    (∀ n, findExistingRow sheet username maskedid eye vfNumber = some n ↔
      ∃ pre row post, sheet = pre ++ row :: post ∧
        matchesIdRow username maskedid eye vfNumber row = true ∧
        (∀ r ∈ pre, matchesIdRow username maskedid eye vfNumber r = false) ∧
        n = pre.length + 1) ∧
    (findExistingRow sheet username maskedid eye vfNumber = none ↔
      ∀ r ∈ sheet, matchesIdRow username maskedid eye vfNumber r = false) := by
  constructor
  · intro n
    rw [findExistingRow, findRowGo_eq_some]
    simp
  · rw [findExistingRow, findRowGo_eq_none]

/-- Claim C1: starting from a sheet with at most one row for the identity
(the documented invariant), saving twice with payloads `d1` then `d2` leaves
exactly one remote row for the identity, whose content is the full
`row_data` of the second payload; the local file at the identity-derived
path holds the second payload; and at most one row was ever appended. -/
theorem save_labels_upsert (fs : LocalStore) (sheet : Sheet)
    (username maskedid eye : Str) (vfNumber : Int) (d1 d2 : LabelsDict)
    (fs1 : LocalStore) (sheet1 : Sheet) (ok1 : Bool)
    (fs2 : LocalStore) (sheet2 : Sheet) (ok2 : Bool)
    (hcount : (sheet.filter (matchesIdRow username maskedid eye vfNumber)).length ≤ 1)
    (h1 : saveLabels true true fs sheet username maskedid eye vfNumber d1 =
      ((fs1, sheet1), ok1))
    (h2 : saveLabels true true fs1 sheet1 username maskedid eye vfNumber d2 =
      ((fs2, sheet2), ok2)) :
    sheet2.filter (matchesIdRow username maskedid eye vfNumber) =
      [rowData username maskedid eye vfNumber d2] ∧
    fs2 (getLabelPath username maskedid eye vfNumber) = some d2 ∧
    sheet2.length ≤ sheet.length + 1 := by
  have hprow1 : matchesIdRow username maskedid eye vfNumber
      (rowData username maskedid eye vfNumber d1) = true := matchesIdRow_rowData _ _ _ _ _
  have hprow2 : matchesIdRow username maskedid eye vfNumber
      (rowData username maskedid eye vfNumber d2) = true := matchesIdRow_rowData _ _ _ _ _
  have hfs2 : fs2 (getLabelPath username maskedid eye vfNumber) = some d2 := by
    have := congrArg (fun x => x.1.1 (getLabelPath username maskedid eye vfNumber)) h2
    simpa [saveLabels] using this.symm
  have hsheet1 : sheet1 =
      (saveToSheets true sheet username maskedid eye vfNumber d1).1 := by
    have := congrArg (fun x => x.1.2) h1
    simpa [saveLabels] using this.symm
  have hsheet2 : sheet2 =
      (saveToSheets true sheet1 username maskedid eye vfNumber d2).1 := by
    have := congrArg (fun x => x.1.2) h2
    simpa [saveLabels] using this.symm
  have hupsert : ∀ (s : Sheet) (dd : LabelsDict) (k : Nat),
      findExistingRow s username maskedid eye vfNumber = some k →
      (saveToSheets true s username maskedid eye vfNumber dd).1 =
        s.set (k - 1) (rowData username maskedid eye vfNumber dd) := by
    intro s dd k hk; simp [saveToSheets, hk]
  have happend : ∀ (s : Sheet) (dd : LabelsDict),
      findExistingRow s username maskedid eye vfNumber = none →
      (saveToSheets true s username maskedid eye vfNumber dd).1 =
        s ++ [rowData username maskedid eye vfNumber dd] := by
    intro s dd hk; simp [saveToSheets, hk]
  rcases hfind : findExistingRow sheet username maskedid eye vfNumber with _ | n
  · -- no pre-existing row: the first save appends, the second overwrites it
    have hall : ∀ r ∈ sheet, matchesIdRow username maskedid eye vfNumber r = false :=
      (findRowGo_eq_none sheet 0).mp hfind
    have hs1 : sheet1 = sheet ++ [rowData username maskedid eye vfNumber d1] := by
      rw [hsheet1, happend sheet d1 hfind]
    have hfind1 : findExistingRow sheet1 username maskedid eye vfNumber =
        some (sheet.length + 1) := by
      rw [hs1, findExistingRow, findRowGo_append sheet hall, findRowGo]
      simp [hprow1]
    have hs2 : sheet2 = sheet ++ [rowData username maskedid eye vfNumber d2] := by
      rw [hsheet2, hupsert sheet1 d2 _ hfind1, hs1, Nat.add_sub_cancel]
      exact set_append_length sheet (rowData username maskedid eye vfNumber d1) []
        (rowData username maskedid eye vfNumber d2)
    refine ⟨?_, hfs2, ?_⟩
    · rw [hs2, List.filter_append, List.filter_eq_nil_iff.mpr (by simpa using hall)]
      simp [hprow2]
    · rw [hs2]; simp
  · -- a pre-existing row: both saves overwrite it in place
    obtain ⟨pre, row, post, hdec, hrow, hpre, hn⟩ :=
      (findRowGo_eq_some sheet 0 n).mp hfind
    have hn' : n = pre.length + 1 := by omega
    have hfpre : List.filter (matchesIdRow username maskedid eye vfNumber) pre = [] :=
      List.filter_eq_nil_iff.mpr (by simpa using hpre)
    have hfpost : List.filter (matchesIdRow username maskedid eye vfNumber) post = [] := by
      have hc := hcount
      rw [hdec, List.filter_append, hfpre, List.filter_cons_of_pos hrow] at hc
      simp only [List.nil_append, List.length_cons] at hc
      exact List.length_eq_zero.mp (by omega)
    have hs1 : sheet1 = pre ++ rowData username maskedid eye vfNumber d1 :: post := by
      rw [hsheet1, hupsert sheet d1 n hfind, hdec, hn', Nat.add_sub_cancel,
        set_append_length]
    have hfind1 : findExistingRow sheet1 username maskedid eye vfNumber = some n := by
      rw [hs1, findExistingRow, findRowGo_append pre (by simpa using hpre), findRowGo]
      simp only [hprow1, if_pos, Option.some.injEq]
      omega
    have hs2 : sheet2 = pre ++ rowData username maskedid eye vfNumber d2 :: post := by
      rw [hsheet2, hupsert sheet1 d2 n hfind1, hs1, hn', Nat.add_sub_cancel,
        set_append_length]
    refine ⟨?_, hfs2, ?_⟩
    · rw [hs2, List.filter_append, hfpre, List.filter_cons_of_pos hprow2, hfpost]
      simp
    · rw [hs2, hdec]
      simp

/-- Claim C1, witness: from an empty sheet and empty local store, specialist
`117` saves field (R, 1) of patient `P001` with a `Normal` payload and then
an `Abnormal` payload; exactly the `Abnormal` row remains for the
identity. -/
theorem save_labels_upsert_witness :
    ((saveLabels true true
        (saveLabels true true (fun _ => none) [] "117".data "P001".data "R".data 1
          [("normality".data, "Normal".data)]).1.1
        (saveLabels true true (fun _ => none) [] "117".data "P001".data "R".data 1
          [("normality".data, "Normal".data)]).1.2
        "117".data "P001".data "R".data 1
        [("normality".data, "Abnormal".data)]).1.2).filter
      (matchesIdRow "117".data "P001".data "R".data 1) =
      [rowData "117".data "P001".data "R".data 1
        [("normality".data, "Abnormal".data)]] :=
  (save_labels_upsert (fun _ => none) [] "117".data "P001".data "R".data 1
    [("normality".data, "Normal".data)] [("normality".data, "Abnormal".data)]
    _ _ _ _ _ _ (by decide) rfl rfl).1

/-- Claim C4: the spec requires `clear_patient_cache("12")` with keys
`"12"`, `"120"`, `"12_2024-01-01"` resident to remove only `"12"` and
`"12_2024-01-01"`.  The code filters the image/labels caches with naive
`key.startswith(patient_key)`, so the key `"120"` of a different patient is
removed as well: evaluating the code at the spec's own test vector, the
image and labels caches end up empty instead of retaining `"120"`. -/
theorem clear_patient_cache_startswith_collision :
    clearPatientCache "12".data
      ⟨["12".data, "120".data],
       ["12".data, "120".data, "12_2024-01-01".data],
       ["12".data, "120".data, "12_2024-01-01".data]⟩ =
      ⟨["120".data], [], []⟩ ∧
    "120".data ∉ (clearPatientCache "12".data
      ⟨["12".data, "120".data],
       ["12".data, "120".data, "12_2024-01-01".data],
       ["12".data, "120".data, "12_2024-01-01".data]⟩).imageCache := by
  decide

/-- Claim C3, counterexample: the claim states that `field_index` is
normalized to an integer-derived canonical string on BOTH sides.  The code
normalizes only the expected side (`str(int(...))`); the found side is the
raw string (`astype(str)`).  With a stored `vf_number` of `"02"` and a
roster `visual_field_number` of `2`, the claim (both sides normalized)
demands `true`, but `check_patient_completion` returns `false`. -/
theorem check_patient_completion_one_sided_normalization :
    checkPatientCompletion
        [⟨"u".data, "p".data, "OD".data, "02".data⟩] "u".data "p".data
        [⟨"OD".data, 2⟩] = false ∧
    checkPatientCompletionSpec
        [⟨"u".data, "p".data, "OD".data, "02".data⟩] "u".data "p".data
        [⟨"OD".data, 2⟩] = true := by
  decide

/-- Claim C3, amended: `check_patient_completion` returns true iff every
expected pair — eye together with the `str(int(...))`-canonicalized field
index — is among the found pairs, where the found side's field index is
compared as its raw string representation (only the expected side is
normalized). -/
theorem check_patient_completion_subset_iff (labels : List LabelRow)
    (username maskedid : Str) (dfPatient : List RosterRow) :
    checkPatientCompletion labels username maskedid dfPatient = true ↔
      ∀ p ∈ expectedPairs dfPatient, p ∈ foundPairs labels username maskedid := by
  simp [checkPatientCompletion, List.all_eq_true, List.elem_iff]

/-- Claim C5: `save_labels` reports success iff at least one backend
succeeded; the remote upsert is attempted and reflected in the resulting
sheet regardless of whether the local write failed, and the local write is
kept regardless of whether the remote service was available. -/
theorem save_labels_at_least_one_sink (localOk service : Bool) (fs : LocalStore)
    (sheet : Sheet) (username maskedid eye : Str) (vfNumber : Int) (d : LabelsDict) :
    ((saveLabels localOk service fs sheet username maskedid eye vfNumber d).2 = true ↔
      (localOk = true ∨
        (saveToSheets service sheet username maskedid eye vfNumber d).2 = true)) ∧
    (saveLabels localOk service fs sheet username maskedid eye vfNumber d).1.2 =
      (saveToSheets service sheet username maskedid eye vfNumber d).1 ∧
    (saveLabels localOk true fs sheet username maskedid eye vfNumber d).1.1 =
      (saveLabels localOk false fs sheet username maskedid eye vfNumber d).1.1 := by
  refine ⟨?_, rfl, rfl⟩
  simp [saveLabels]

/-- Claim C10: `get_user_stats` never divides by zero — the completion
percentage is `0` when `total_patients = 0` and
`completed_count / total_patients * 100` when `total_patients > 0`, and the
remaining count is always `total_patients - completed_count`. -/
theorem get_user_stats_no_division_by_zero (tbl : ProgressTable) (username : Str)
    (totalPatients : Int) :
    (getUserStats tbl username totalPatients).remainingCount =
      totalPatients - (getUserStats tbl username totalPatients).completedCount ∧
    (totalPatients = 0 →
      (getUserStats tbl username totalPatients).completionPercentage = 0) ∧
    (0 < totalPatients →
      (getUserStats tbl username totalPatients).completionPercentage =
        ((getUserStats tbl username totalPatients).completedCount : ℚ)
          / (totalPatients : ℚ) * 100) := by
  refine ⟨rfl, ?_, ?_⟩ <;> intro h <;> simp [getUserStats, h]

/-- Claim C10, witness: the statistics of an unseen user over an empty
roster — total `0` yields percentage `0`. -/
theorem get_user_stats_no_division_by_zero_witness :
    (getUserStats [] "u".data 0).completionPercentage = 0 :=
  (get_user_stats_no_division_by_zero [] "u".data 0).2.1 rfl

/-- Claim C2: with capacity 5, inserting six distinct keys in order leaves
exactly the last five resident with the first evicted; touching the
second-oldest key before the sixth insertion moves it to the MRU end, so the
original oldest key is the one evicted; and every touch of a
within-capacity cache leaves at most 5 keys with the touched key in the MRU
(last) position. -/
theorem update_cache_order_lru (k1 k2 k3 k4 k5 k6 : Str)
    (hnd : [k1, k2, k3, k4, k5, k6].Nodup) :
    updateCacheOrder 5 k6 (updateCacheOrder 5 k5 (updateCacheOrder 5 k4 (updateCacheOrder 5 k3
        (updateCacheOrder 5 k2 (updateCacheOrder 5 k1 []))))) = [k2, k3, k4, k5, k6] ∧
    updateCacheOrder 5 k6 (updateCacheOrder 5 k2 (updateCacheOrder 5 k5 (updateCacheOrder 5 k4
        (updateCacheOrder 5 k3 (updateCacheOrder 5 k2 (updateCacheOrder 5 k1 [])))))) =
      [k3, k4, k5, k2, k6] ∧
    (∀ (k : Str) (c : List Str), c.length ≤ 5 →
      (updateCacheOrder 5 k c).length ≤ 5 ∧ (updateCacheOrder 5 k c).getLast? = some k) := by
  simp only [List.nodup_cons, List.mem_cons, List.mem_singleton, List.not_mem_nil,
    or_false, not_or, List.nodup_nil, and_true] at hnd
  obtain ⟨⟨h12, h13, h14, h15, h16⟩, ⟨h23, h24, h25, h26⟩, ⟨h34, h35, h36⟩,
    ⟨h45, h46⟩, h56, -⟩ := hnd
  have h21 := Ne.symm h12
  have h31 := Ne.symm h13
  have h32 := Ne.symm h23
  have h41 := Ne.symm h14
  have h42 := Ne.symm h24
  have h43 := Ne.symm h34
  have h51 := Ne.symm h15
  have h52 := Ne.symm h25
  have h53 := Ne.symm h35
  have h54 := Ne.symm h45
  have h61 := Ne.symm h16
  have h62 := Ne.symm h26
  have h63 := Ne.symm h36
  have h64 := Ne.symm h46
  have h65 := Ne.symm h56
  have e1 : updateCacheOrder 5 k1 [] = [k1] := by
    simp [updateCacheOrder, evictOldest, evictGo]
  have e2 : updateCacheOrder 5 k2 [k1] = [k1, k2] := by
    simp [updateCacheOrder, evictOldest, evictGo, h21]
  have e3 : updateCacheOrder 5 k3 [k1, k2] = [k1, k2, k3] := by
    simp [updateCacheOrder, evictOldest, evictGo, h31, h32]
  have e4 : updateCacheOrder 5 k4 [k1, k2, k3] = [k1, k2, k3, k4] := by
    simp [updateCacheOrder, evictOldest, evictGo, h41, h42, h43]
  have e5 : updateCacheOrder 5 k5 [k1, k2, k3, k4] = [k1, k2, k3, k4, k5] := by
    simp [updateCacheOrder, evictOldest, evictGo, h51, h52, h53, h54]
  have ea : updateCacheOrder 5 k6 [k1, k2, k3, k4, k5] = [k2, k3, k4, k5, k6] := by
    simp [updateCacheOrder, evictOldest, evictGo, h61, h62, h63, h64, h65]
  have eb : updateCacheOrder 5 k2 [k1, k2, k3, k4, k5] = [k1, k3, k4, k5, k2] := by
    simp [updateCacheOrder, List.erase_cons, h12]
  have ec : updateCacheOrder 5 k6 [k1, k3, k4, k5, k2] = [k3, k4, k5, k2, k6] := by
    simp [updateCacheOrder, evictOldest, evictGo, h61, h62, h63, h64, h65]
  refine ⟨?_, ?_, ?_⟩
  · rw [e1, e2, e3, e4, e5, ea]
  · rw [e1, e2, e3, e4, e5, eb, ec]
  · intro k c hc
    exact ⟨updateCacheOrder_length_le 5 k c hc,
      updateCacheOrder_getLast? 5 (by omega) k c⟩

theorem isPre_append_cancel {l a b : List Char} (h : (l ++ a) <+: (l ++ b)) : a <+: b := by
  obtain ⟨t, ht⟩ := h
  rw [List.append_assoc] at ht
  exact ⟨t, List.append_cancel_left ht⟩

theorem eq_of_sepFree_isPre (sep : Char) :
    ∀ (m p rest : List Char), sep ∉ m → sep ∉ p →
      (m ++ [sep]) <+: (p ++ [sep] ++ rest) → m = p := by
  intro m
  induction m with
  | nil =>
    intro p rest hm hp h
    cases p with
    | nil => rfl
    | cons b p =>
      exfalso
      have hb : sep = b := by simpa using h
      apply hp
      rw [hb]
      exact List.mem_cons_self b p
  | cons a m ih =>
    intro p rest hm hp h
    cases p with
    | nil =>
      exfalso
      have ha : a = sep := (List.cons_prefix_cons.mp (by simpa using h)).1
      apply hm
      rw [← ha]
      exact List.mem_cons_self a m
    | cons b p =>
      have h' := List.cons_prefix_cons.mp (by simpa using h)
      rw [h'.1, ih p rest (fun hs => hm (List.mem_cons_of_mem a hs))
        (fun hs => hp (List.mem_cons_of_mem b hs)) (by simpa using h'.2)]

/-- The deletion filter of `delete_user_labels_for_patient` never matches a
label file of a different patient, provided neither patient id contains the
`_` delimiter. -/
theorem labelFileMatches_other_patient (u m p e : Str) (vf : Int)
    (hm : '_' ∉ m) (hp : '_' ∉ p) (hne : p ≠ m) :
    labelFileMatches u m (getLabelPath u p e vf) = false := by
  rw [labelFileMatches]
  have hnp : ((u ++ "_".data ++ m ++ "_".data).isPrefixOf
      (getLabelPath u p e vf)) = false := by
    rw [Bool.eq_false_iff]
    intro hpre
    rw [List.isPrefixOf_iff_prefix] at hpre
    apply hne
    symm
    refine eq_of_sepFree_isPre '_' m p
      (e ++ "_".data ++ intStr vf ++ ".json".data) hm hp ?_
    apply @isPre_append_cancel (u ++ "_".data)
    rw [getLabelPath] at hpre
    simpa [List.append_assoc] using hpre
  rw [hnp]
  rfl

/-- Claim C9, counterexample: the claim promises that files of ANY other
patient id survive.  A patient id that itself contains the `_` delimiter
defeats the prefix check: deleting labels of patient `12` also deletes the
label file of the distinct patient `12_x`. -/
theorem delete_user_labels_underscore_collision :
    "12_x".data ≠ "12".data ∧
    (deleteUserLabelsForPatient
        [getLabelPath "u".data "12_x".data "OD".data 1]
        "u".data "12".data).1 = [] := by
  decide

/-- Claim C9, amended: `delete_user_labels_for_patient` always reports
success (absent directory and absent matches included), removes exactly the
`.json` files carrying the `{username}_{maskedid}_` prefix, and preserves
every label file of a different patient whose id — like the target id —
does not contain the `_` delimiter (so `120` survives a deletion of `12`;
ids containing `_` are not protected). -/
theorem delete_user_labels_exact (files : List Str) (u m : Str) :
    (deleteUserLabelsForPatient files u m).2 = true ∧
    (∀ f, f ∈ (deleteUserLabelsForPatient files u m).1 ↔
      f ∈ files ∧ labelFileMatches u m f = false) ∧
    (∀ (p e : Str) (vf : Int), '_' ∉ m → '_' ∉ p → p ≠ m →
      getLabelPath u p e vf ∈ files →
      getLabelPath u p e vf ∈ (deleteUserLabelsForPatient files u m).1) := by
  refine ⟨rfl, ?_, ?_⟩
  · intro f
    simp [deleteUserLabelsForPatient, List.mem_filter]
  · intro p e vf hm hp hne hf
    rw [deleteUserLabelsForPatient]
    apply List.mem_filter.mpr
    refine ⟨hf, ?_⟩
    simp [labelFileMatches_other_patient u m p e vf hm hp hne]

/-- Claim C9, witness: with label files of patients `12` and `120` for user
`u` present, deleting the labels of patient `12` leaves the file of patient
`120` in place. -/
theorem delete_user_labels_exact_witness :
    getLabelPath "u".data "120".data "OD".data 1 ∈
      (deleteUserLabelsForPatient
        [getLabelPath "u".data "12".data "OD".data 1,
         getLabelPath "u".data "120".data "OD".data 1]
        "u".data "12".data).1 :=
  (delete_user_labels_exact
    [getLabelPath "u".data "12".data "OD".data 1,
     getLabelPath "u".data "120".data "OD".data 1]
    "u".data "12".data).2.2 "120".data "OD".data 1
    (by decide) (by decide) (by decide) (by decide)

theorem splitOnP_pieces {α : Type _} (p : α → Bool) :
    ∀ (xs : List α) (l : List α), l ∈ xs.splitOnP p → ∀ a ∈ l, ¬p a := by
  intro xs
  induction xs with
  | nil =>
    intro l hl a ha
    simp at hl
    subst hl
    simp at ha
  | cons x xs ih =>
    intro l hl a ha
    rw [List.splitOnP_cons] at hl
    by_cases hx : p x
    · rw [if_pos hx] at hl
      rcases List.mem_cons.mp hl with rfl | hl
      · simp at ha
      · exact ih l hl a ha
    · rw [if_neg hx] at hl
      rcases hsp : xs.splitOnP p with _ | ⟨hd, tl⟩
      · exact absurd hsp (List.splitOnP_ne_nil p xs)
      · rw [hsp, List.modifyHead_cons] at hl
        rcases List.mem_cons.mp hl with rfl | hl
        · rcases List.mem_cons.mp ha with rfl | ha
          · exact hx
          · exact ih hd (by rw [hsp]; exact List.mem_cons_self hd tl) a ha
        · exact ih l (by rw [hsp]; exact List.mem_cons_of_mem hd hl) a ha

theorem sep_not_mem_of_mem_splitOn {sep : Char} {s l : Str}
    (hl : l ∈ s.splitOn sep) : sep ∉ l := by
  intro hmem
  have := splitOnP_pieces (· == sep) s l (by simpa [List.splitOn] using hl) sep hmem
  simp at this

theorem mem_parseCompleted_sepFree {s x : Str} (hx : x ∈ parseCompleted s) : ';' ∉ x := by
  rw [parseCompleted] at hx
  by_cases h : s = []
  · rw [if_pos h] at hx
    simp at hx
  · rw [if_neg h] at hx
    exact sep_not_mem_of_mem_splitOn (List.mem_dedup.mp hx)

theorem parseCompleted_nodup (s : Str) : (parseCompleted s).Nodup := by
  rw [parseCompleted]
  split
  · exact List.nodup_nil
  · exact List.nodup_dedup _

theorem mem_insertSorted {x y : Str} :
    ∀ (l : List Str), y ∈ insertSorted x l ↔ y = x ∨ y ∈ l := by
  intro l
  induction l with
  | nil => simp [insertSorted]
  | cons a l ih =>
    rw [insertSorted]
    by_cases h : strLe x a
    · rw [if_pos h]
      simp [List.mem_cons]
    · rw [if_neg h]
      simp only [List.mem_cons, ih]
      tauto

theorem mem_pysort {y : Str} : ∀ (l : List Str), y ∈ pysort l ↔ y ∈ l := by
  intro l
  induction l with
  | nil => simp [pysort]
  | cons a l ih =>
    rw [pysort, mem_insertSorted]
    simp [ih]

theorem nodup_insertSorted {x : Str} :
    ∀ (l : List Str), x ∉ l → l.Nodup → (insertSorted x l).Nodup := by
  intro l
  induction l with
  | nil =>
    intro _ _
    simp [insertSorted]
  | cons a l ih =>
    intro hx hl
    rcases List.nodup_cons.mp hl with ⟨hal, hl'⟩
    rw [insertSorted]
    by_cases h : strLe x a
    · rw [if_pos h]
      exact List.nodup_cons.mpr ⟨hx, hl⟩
    · rw [if_neg h]
      refine List.nodup_cons.mpr
        ⟨?_, ih (fun hm => hx (List.mem_cons_of_mem a hm)) hl'⟩
      intro hmem
      rcases (mem_insertSorted l).mp hmem with rfl | hmem
      · exact hx (List.mem_cons_self a l)
      · exact hal hmem

theorem nodup_pysort : ∀ (l : List Str), l.Nodup → (pysort l).Nodup := by
  intro l
  induction l with
  | nil =>
    intro _
    simp [pysort]
  | cons a l ih =>
    intro h
    rcases List.nodup_cons.mp h with ⟨hal, hl⟩
    exact nodup_insertSorted _ (fun hm => hal ((mem_pysort l).mp hm)) (ih hl)

theorem joinSemi_singleton (x : Str) : joinSemi [x] = x := by
  simp [joinSemi, List.intercalate]

theorem joinSemi_ne_nil :
    ∀ (l : List Str), (∃ x ∈ l, x ≠ []) → joinSemi l ≠ [] := by
  intro l
  match l with
  | [] =>
    rintro ⟨x, hx, _⟩
    simp at hx
  | [a] =>
    rintro ⟨x, hx, hne⟩
    rw [joinSemi_singleton]
    simp at hx
    rwa [← hx]
  | a :: b :: t =>
    intro _
    have hrw : joinSemi (a :: b :: t) = a ++ ';' :: joinSemi (b :: t) := by
      simp [joinSemi, List.intercalate]
    rw [hrw]
    exact List.append_ne_nil_of_right_ne_nil a (by simp)

theorem parse_joinSemi {l : List Str} (hne : l ≠ []) (hsep : ∀ x ∈ l, ';' ∉ x)
    (hx : ∃ x ∈ l, x ≠ []) (hnd : l.Nodup) : parseCompleted (joinSemi l) = l := by
  rw [parseCompleted, if_neg (joinSemi_ne_nil l hx)]
  have hsplit : (joinSemi l).splitOn ';' = l :=
    List.splitOn_intercalate l ';' hsep hne
  rw [hsplit]
  exact List.dedup_eq_self.mpr hnd

theorem getCompletedPatients_sepFree (tbl : ProgressTable) (u : Str) :
    ∀ x ∈ getCompletedPatients tbl u, ';' ∉ x := by
  intro x hx
  rw [getCompletedPatients] at hx
  rcases h : findUserRow tbl u with _ | r
  · rw [h] at hx
    simp at hx
  · rw [h] at hx
    exact mem_parseCompleted_sepFree hx

theorem getCompletedPatients_nodup (tbl : ProgressTable) (u : Str) :
    (getCompletedPatients tbl u).Nodup := by
  rw [getCompletedPatients]
  rcases h : findUserRow tbl u with _ | r
  · exact List.nodup_nil
  · exact parseCompleted_nodup _

theorem markRow_of_mem {u m : Str} :
    ∀ (tbl : ProgressTable) (r : ProgressRow), findUserRow tbl u = some r →
      m ∈ parseCompleted r.completedPatients → markRow u m tbl = tbl := by
  intro tbl
  induction tbl with
  | nil =>
    intro r h _
    simp [findUserRow] at h
  | cons r0 rs ih =>
    intro r h hm
    rw [markRow]
    by_cases h0 : r0.username = u
    · rw [if_pos h0]
      have hr : r = r0 := by
        rw [findUserRow, List.find?_cons_of_pos rs (by simp [h0])] at h
        injection h with h
        exact h.symm
      rw [hr] at hm
      rw [if_pos hm]
    · rw [if_neg h0]
      rw [findUserRow, List.find?_cons_of_neg rs (by simp [h0])] at h
      rw [ih r h hm]

theorem findUserRow_markRow_of_not_mem {u m : Str} :
    ∀ (tbl : ProgressTable) (r : ProgressRow), findUserRow tbl u = some r →
      m ∉ parseCompleted r.completedPatients →
      findUserRow (markRow u m tbl) u =
        some ⟨r.username,
          joinSemi (pysort (m :: parseCompleted r.completedPatients)), m⟩ := by
  intro tbl
  induction tbl with
  | nil =>
    intro r h _
    simp [findUserRow] at h
  | cons r0 rs ih =>
    intro r h hm
    rw [markRow]
    by_cases h0 : r0.username = u
    · have hr : r = r0 := by
        rw [findUserRow, List.find?_cons_of_pos rs (by simp [h0])] at h
        injection h with h
        exact h.symm
      subst hr
      rw [if_pos h0, if_neg hm]
      rw [findUserRow, List.find?_cons_of_pos _ (by simp [h0])]
    · rw [if_neg h0]
      rw [findUserRow, List.find?_cons_of_neg rs (by simp [h0])] at h
      rw [findUserRow, List.find?_cons_of_neg _ (by simp [h0])]
      exact ih r h hm

theorem findUserRow_append {u : Str} :
    ∀ (tbl : ProgressTable) (row : ProgressRow), findUserRow tbl u = none →
      findUserRow (tbl ++ [row]) u =
        if row.username = u then some row else none := by
  intro tbl
  induction tbl with
  | nil =>
    intro row _
    simp only [List.nil_append, findUserRow]
    by_cases h0 : row.username = u
    · rw [List.find?_cons_of_pos _ (by simp [h0]), if_pos h0]
    · rw [List.find?_cons_of_neg _ (by simp [h0]), if_neg h0]
      rfl
  | cons r0 rs ih =>
    intro row h
    by_cases h0 : r0.username = u
    · rw [findUserRow, List.find?_cons_of_pos rs (by simp [h0])] at h
      cases h
    · rw [findUserRow, List.find?_cons_of_neg rs (by simp [h0])] at h
      rw [List.cons_append, findUserRow, List.find?_cons_of_neg _ (by simp [h0])]
      exact ih row h

/-- The already-completed branch of `mark_patient_completed`: when the
patient is already a member of the user's completed set, the written table
is the one that was read, and the call succeeds. -/
theorem markPatientCompleted_of_mem (tbl : ProgressTable) (u m : Str)
    (hm : m ∈ getCompletedPatients tbl u) :
    markPatientCompleted true tbl u m = (tbl, true) := by
  rw [getCompletedPatients] at hm
  rcases hfind : findUserRow tbl u with _ | r
  · rw [hfind] at hm
    simp at hm
  · rw [hfind] at hm
    simp only [markPatientCompleted, hfind]
    rw [markRow_of_mem tbl r hfind hm]
    simp

/-- The new-member branch of `mark_patient_completed`: the user's row in the
written table serializes the enlarged set and records the patient as
`last_patient`. -/
theorem findUserRow_markPatientCompleted (tbl : ProgressTable) (u m : Str)
    (hm : m ∉ getCompletedPatients tbl u) :
    findUserRow (markPatientCompleted true tbl u m).1 u =
      some ⟨u, joinSemi (pysort (m :: getCompletedPatients tbl u)), m⟩ := by
  rcases hfind : findUserRow tbl u with _ | r
  · have h1 : (markPatientCompleted true tbl u m).1 =
        tbl ++ [⟨u, m, m⟩] := by
      simp [markPatientCompleted, hfind]
    rw [h1, findUserRow_append tbl _ hfind]
    simp only [if_pos rfl]
    simp [getCompletedPatients, hfind, pysort, insertSorted, joinSemi_singleton]
  · simp only [getCompletedPatients, hfind] at hm
    have hu : r.username = u := by
      rw [findUserRow] at hfind
      have := List.find?_some hfind
      simpa using this
    have h1 : (markPatientCompleted true tbl u m).1 = markRow u m tbl := by
      simp [markPatientCompleted, hfind]
    rw [h1, findUserRow_markRow_of_not_mem tbl r hfind hm, hu]
    simp [getCompletedPatients, hfind]

/-- Claim C6: `mark_patient_completed` is idempotent — if the patient is
already a member of the specialist's completed set, the call is a no-op
success (the table, hence the completed set and `last_patient`, is
unchanged); otherwise it succeeds, and the specialist's row in the written
table holds the serialization of the enlarged completed set and the patient
as `last_patient`. -/
theorem mark_patient_completed_upsert (tbl : ProgressTable) (u m : Str) :
    (m ∈ getCompletedPatients tbl u →
      markPatientCompleted true tbl u m = (tbl, true)) ∧
    (m ∉ getCompletedPatients tbl u →
      (markPatientCompleted true tbl u m).2 = true ∧
      findUserRow (markPatientCompleted true tbl u m).1 u =
        some ⟨u, joinSemi (pysort (m :: getCompletedPatients tbl u)), m⟩) := by
  refine ⟨markPatientCompleted_of_mem tbl u m, fun hm => ⟨?_, findUserRow_markPatientCompleted tbl u m hm⟩⟩
  rcases hfind : findUserRow tbl u with _ | r <;> simp [markPatientCompleted, hfind]

/-- Claim C6, witness: marking the already-completed patient `p` of user `a`
leaves the table unchanged and reports success. -/
theorem mark_patient_completed_upsert_witness :
    markPatientCompleted true [⟨"a".data, "p".data, "p".data⟩] "a".data "p".data =
      ([⟨"a".data, "p".data, "p".data⟩], true) :=
  (mark_patient_completed_upsert [⟨"a".data, "p".data, "p".data⟩]
    "a".data "p".data).1 (by decide)

/-- Claim C8: for a patient id that is non-empty and free of the `;`
delimiter, a successful `mark_patient_completed` followed by
`get_completed_patients` yields exactly the previous completed set united
with the new patient — serializing with `";".join(sorted(...))` and parsing
with `.split(";")` round-trips. -/
theorem mark_then_read_roundtrip (tbl : ProgressTable) (u m : Str)
    (hsep : ';' ∉ m) (hne : m ≠ []) :
    ∀ x, x ∈ getCompletedPatients (markPatientCompleted true tbl u m).1 u ↔
      (x ∈ getCompletedPatients tbl u ∨ x = m) := by
  intro x
  by_cases hm : m ∈ getCompletedPatients tbl u
  · rw [markPatientCompleted_of_mem tbl u m hm]
    constructor
    · exact Or.inl
    · rintro (h | rfl)
      · exact h
      · exact hm
  · have hfr := findUserRow_markPatientCompleted tbl u m hm
    have hparse : parseCompleted
        (joinSemi (pysort (m :: getCompletedPatients tbl u))) =
        pysort (m :: getCompletedPatients tbl u) := by
      apply parse_joinSemi
      · exact List.ne_nil_of_mem ((mem_pysort _).mpr (List.mem_cons_self m _))
      · intro y hy
        rcases List.mem_cons.mp ((mem_pysort _).mp hy) with rfl | hy
        · exact hsep
        · exact getCompletedPatients_sepFree tbl u y hy
      · exact ⟨m, (mem_pysort _).mpr (List.mem_cons_self m _), hne⟩
      · exact nodup_pysort _ (List.nodup_cons.mpr ⟨hm, getCompletedPatients_nodup tbl u⟩)
    rw [getCompletedPatients, hfr]
    show x ∈ parseCompleted (joinSemi (pysort (m :: getCompletedPatients tbl u))) ↔
      x ∈ getCompletedPatients tbl u ∨ x = m
    rw [hparse, mem_pysort, List.mem_cons]
    tauto

/-- Claim C8, witness: marking the fresh patient `q` for user `a` makes `q`
readable from the written completion table. -/
theorem mark_then_read_roundtrip_witness :
    "q".data ∈ getCompletedPatients
      (markPatientCompleted true [⟨"a".data, "p".data, "p".data⟩]
        "a".data "q".data).1 "a".data :=
  ((mark_then_read_roundtrip [⟨"a".data, "p".data, "p".data⟩] "a".data "q".data
    (by decide) (by decide)) "q".data).mpr (Or.inr rfl)

/-- Claim C2, witness: the two eviction scenarios evaluated at the concrete
distinct keys `p1` … `p6`. -/
theorem update_cache_order_lru_witness :
    updateCacheOrder 5 "p6".data (updateCacheOrder 5 "p5".data (updateCacheOrder 5 "p4".data
        (updateCacheOrder 5 "p3".data (updateCacheOrder 5 "p2".data
          (updateCacheOrder 5 "p1".data []))))) =
      ["p2".data, "p3".data, "p4".data, "p5".data, "p6".data] :=
  (update_cache_order_lru "p1".data "p2".data "p3".data "p4".data "p5".data "p6".data
    (by decide)).1

end Glaucoma
